import Mathlib

/-!
# ITKIOScanco: the class itk::ScancoImageIO (include/itkScancoImageIO.h)

A shallow embedding of the image IO class declared in itkScancoImageIO.h.

* The three member functions with an inline body in the header
  (SupportsDimension, CanStreamRead, CanStreamWrite) are transcribed from that body.
* DecodeInt, GetActualNumberOfSplitsForWriting and GetSplitRegionForWriting are only
  declared in the header; their bodies are in a translation unit that is not among the
  sources at hand, so they are modelled from the written specification and marked as such.
-/

namespace itk

/-! ## Object state -/

/-- An itk::ScancoImageIO object. The class derives from ImageIOBase and declares no data
member of its own, so its whole state (file name, dimensions read from a header, ...) is the
base-class state, taken as a parameter. -/
structure ScancoImageIO (ImageIOBase : Type) where
  toImageIOBase : ImageIOBase

/-! ## Inline member functions -/

/-- Member function `virtual bool SupportsDimension(unsigned long dimension)`, with body
`if( dimension == 3 ) { return true; } return false;`. Every unsigned long is a natural
number, whatever the width of the type. -/
def SupportsDimension {ImageIOBase : Type} (_self : ScancoImageIO ImageIOBase)
    (dimension : Nat) : Bool :=
  if dimension = 3 then true else false

/-- Member function `virtual bool CanStreamRead()`, with body `return true;`. -/
def CanStreamRead {ImageIOBase : Type} (_self : ScancoImageIO ImageIOBase) : Bool :=
  true

/-- Member function `virtual bool CanStreamWrite()`, with body `return true;`. -/
def CanStreamWrite {ImageIOBase : Type} (_self : ScancoImageIO ImageIOBase) : Bool :=
  true

/-! ## Scalar decoder -/

/-- Modelled from the spec: the body of `static int DecodeInt(const void *data)` is missing
(the header only declares it, with the comment "Convert char data to 32-bit int
(little-endian)"). Spec §4.1: a span of exactly four bytes, assumed little-endian, gives the
corresponding 32-bit integer. The four bytes are assembled by shifts and bitwise or, byte 0
lowest, and the 32-bit pattern is read as a signed int. -/
def DecodeInt (data : Fin 4 → Fin 256) : Int :=
  let u : Nat :=
    (data 0).val ||| ((data 1).val <<< 8) ||| ((data 2).val <<< 16) ||| ((data 3).val <<< 24)
  if u < 2 ^ 31 then (u : Int) else (u : Int) - 2 ^ 32

/-! ## Region mapper, write side -/

/-- Modelled from the spec: the type ImageIORegion comes from the host toolkit and is missing
from the sources. Spec §3 (ImageRegion): an axis-aligned sub-volume given by a 3-integer start
index and a 3-integer size. -/
structure ImageIORegion where
  index : Fin 3 → Int
  size : Fin 3 → Nat

/-- Modelled from the spec: membership of a voxel position in an ImageIORegion (the region
type is missing from the sources); on every axis the coordinate lies in
[index, index + size). -/
def ImageIORegion.IsInside (r : ImageIORegion) (p : Fin 3 → Int) : Prop :=
  ∀ a : Fin 3, r.index a ≤ p a ∧ p a < r.index a + (r.size a : Int)

instance (r : ImageIORegion) (p : Fin 3 → Int) : Decidable (r.IsInside p) := by
  unfold ImageIORegion.IsInside
  infer_instance

/-- Modelled from the spec: the search for the split axis is part of the missing bodies of
the two split functions. Spec §4.4: the OUTERMOST splittable axis, that is the highest axis
that holds more than one slab; none when no axis can be split. -/
def splitAxis (size : Fin 3 → Nat) : Option (Fin 3) :=
  if 1 < size 2 then some 2
  else if 1 < size 1 then some 1
  else if 1 < size 0 then some 0
  else none

/-- Modelled from the spec: rounded-up quotient used by the missing bodies of the two split
functions to size the chunks of spec §4.4. -/
def ceilQuotient (a b : Nat) : Nat := (a + b - 1) / b

/-- Modelled from the spec: the body of GetActualNumberOfSplitsForWriting is missing (the
header only declares it). Spec §4.4: the actual achievable number of splits, which may be less
than requested and is 1 when no axis can be split; the split axis is cut into chunks of
`ceil(range / requested)` slabs, and the count is the number of chunks this gives. -/
def GetActualNumberOfSplitsForWriting (numberOfRequestedSplits : Nat)
    (pasteRegion _largestPossibleRegion : ImageIORegion) : Nat :=
  match splitAxis pasteRegion.size with
  | none => 1
  | some a =>
    let range := pasteRegion.size a
    let valuesPerPiece := ceilQuotient range numberOfRequestedSplits
    let maxPieceUsed := ceilQuotient range valuesPerPiece - 1
    maxPieceUsed + 1

/-- Modelled from the spec: the body of GetSplitRegionForWriting is missing (the header only
declares it). Spec §4.4: the outermost splittable axis is divided into contiguous chunks in
ascending order of start index; every piece before the last has
`ceil(range / numberOfActualSplits)` slabs and the last piece takes the slabs that remain.
The other axes are those of the paste region. A region that cannot be split, and a piece
index past the last piece, give the paste region itself. -/
def GetSplitRegionForWriting (ithPiece numberOfActualSplits : Nat)
    (pasteRegion _largestPossibleRegion : ImageIORegion) : ImageIORegion :=
  match splitAxis pasteRegion.size with
  | none => pasteRegion
  | some a =>
    let range := pasteRegion.size a
    let valuesPerPiece := ceilQuotient range numberOfActualSplits
    let maxPieceUsed := ceilQuotient range valuesPerPiece - 1
    if ithPiece < maxPieceUsed then
      { index := Function.update pasteRegion.index a
          (pasteRegion.index a + ((ithPiece * valuesPerPiece : Nat) : Int))
        size := Function.update pasteRegion.size a valuesPerPiece }
    else if ithPiece = maxPieceUsed then
      { index := Function.update pasteRegion.index a
          (pasteRegion.index a + ((ithPiece * valuesPerPiece : Nat) : Int))
        size := Function.update pasteRegion.size a (range - ithPiece * valuesPerPiece) }
    else pasteRegion

/-- A sample paste region: 4 x 4 x 10 voxels starting at slab 5 of the last axis. -/
def samplePaste : ImageIORegion := { index := ![0, 0, 5], size := ![4, 4, 10] }

/-- A sample full extent: 4 x 4 x 20 voxels. -/
def sampleLargest : ImageIORegion := { index := ![0, 0, 0], size := ![4, 4, 20] }

/-! ## Inline member functions: theorems -/

/-- C1: for every object and every unsigned dimension d, SupportsDimension d is true exactly
when d = 3; it is false at 0, 1 and 2 and at every d above 3. -/
theorem SupportsDimension_iff_three {ImageIOBase : Type} (self : ScancoImageIO ImageIOBase)
    (d : Nat) :
    (SupportsDimension self d = true ↔ d = 3) ∧
      SupportsDimension self 0 = false ∧
      SupportsDimension self 1 = false ∧
      SupportsDimension self 2 = false ∧
      (3 < d → SupportsDimension self d = false) := by
  refine ⟨?_, ?_, ?_, ?_, ?_⟩
  · unfold SupportsDimension
    by_cases h : d = 3 <;> simp [h]
  · simp [SupportsDimension]
  · simp [SupportsDimension]
  · simp [SupportsDimension]
  · intro h
    have h3 : d ≠ 3 := by omega
    simp [SupportsDimension, h3]

/-- C8: CanStreamRead answers true for every object, whatever state it carries. -/
theorem CanStreamRead_always {ImageIOBase : Type} (self : ScancoImageIO ImageIOBase) :
    CanStreamRead self = true := by
  rfl

/-- C9: CanStreamWrite answers true for every object, whatever state it carries. -/
theorem CanStreamWrite_always {ImageIOBase : Type} (self : ScancoImageIO ImageIOBase) :
    CanStreamWrite self = true := by
  rfl

/-! ## Scalar decoder: theorems -/

/-- Bitwise or with a value shifted past every set bit of the other operand is addition. -/
theorem or_shiftLeft_eq_add (a b i : Nat) (h : a < 2 ^ i) :
    a ||| (b <<< i) = a + b * 2 ^ i := by
  rw [Nat.shiftLeft_eq, Nat.lor_comm, Nat.mul_comm b, ← Nat.mul_add_lt_is_or h, Nat.add_comm]

/-- The word assembled from four bytes by shifts and or is their base-256 sum. -/
theorem word_eq_sum (data : Fin 4 → Fin 256) :
    (data 0).val ||| ((data 1).val <<< 8) ||| ((data 2).val <<< 16) ||| ((data 3).val <<< 24)
      = (data 0).val + 2 ^ 8 * (data 1).val + 2 ^ 16 * (data 2).val + 2 ^ 24 * (data 3).val := by
  have h0 := (data 0).isLt
  have h1 := (data 1).isLt
  have h2 := (data 2).isLt
  have h3 := (data 3).isLt
  rw [or_shiftLeft_eq_add _ _ 8 (by omega)]
  rw [or_shiftLeft_eq_add _ _ 16 (by omega)]
  rw [or_shiftLeft_eq_add _ _ 24 (by omega)]
  omega

/-- The all-ones pattern decodes to -1 and the pattern with only the top bit set decodes to
the least 32-bit integer. -/
theorem DecodeInt_negative_samples :
    DecodeInt ![0xff, 0xff, 0xff, 0xff] = -1 ∧ DecodeInt ![0, 0, 0, 0x80] = -2147483648 := by
  constructor <;> decide

/-- C6: for every four bytes, DecodeInt is the signed 32-bit integer whose little-endian
representation they are: it lies in [-2^31, 2^31), it is congruent modulo 2^32 to
b0 + 2^8 b1 + 2^16 b2 + 2^24 b3, hence it is that sum taken as a two's-complement 32-bit
value; the bytes 01 00 00 00 decode to 1. -/
theorem DecodeInt_littleEndian (data : Fin 4 → Fin 256) :
    (-2 ^ 31 ≤ DecodeInt data ∧ DecodeInt data < 2 ^ 31) ∧
      DecodeInt data % 2 ^ 32 =
        (((data 0).val + 2 ^ 8 * (data 1).val + 2 ^ 16 * (data 2).val
            + 2 ^ 24 * (data 3).val : Nat) : Int) ∧
      DecodeInt data =
        Int.bmod (((data 0).val + 2 ^ 8 * (data 1).val + 2 ^ 16 * (data 2).val
            + 2 ^ 24 * (data 3).val : Nat) : Int) (2 ^ 32) ∧
      DecodeInt ![1, 0, 0, 0] = 1 := by
  have h0 := (data 0).isLt
  have h1 := (data 1).isLt
  have h2 := (data 2).isLt
  have h3 := (data 3).isLt
  have hw := word_eq_sum data
  refine ⟨?_, ?_, ?_, by decide⟩
  · unfold DecodeInt
    simp only [hw]
    split <;> omega
  · unfold DecodeInt
    simp only [hw]
    split <;> omega
  · unfold DecodeInt Int.bmod
    simp only [hw]
    split <;> split <;> omega

/-! ## Region mapper, write side: theorems -/

/-- The rounded-up quotient is the least multiplier that covers the dividend. -/
theorem ceilQuotient_le_iff {a b m : Nat} (hb : 0 < b) : ceilQuotient a b ≤ m ↔ a ≤ m * b := by
  unfold ceilQuotient
  rw [Nat.div_le_iff_le_mul_add_pred hb, Nat.mul_comm b m]
  omega

/-- The rounded-up quotient times the divisor covers the dividend. -/
theorem le_ceilQuotient_mul (a : Nat) {b : Nat} (hb : 0 < b) : a ≤ ceilQuotient a b * b :=
  (ceilQuotient_le_iff hb).1 (Nat.le_refl _)

/-- The rounded-up quotient of a positive number is positive. -/
theorem ceilQuotient_pos {a b : Nat} (ha : 0 < a) (hb : 0 < b) : 0 < ceilQuotient a b := by
  by_contra h
  have h0 : ceilQuotient a b ≤ 0 := by omega
  have := (ceilQuotient_le_iff hb).1 h0
  omega

/-- One chunk fewer than the rounded-up quotient does not cover the dividend. -/
theorem pred_ceilQuotient_mul_lt {a b : Nat} (ha : 0 < a) (hb : 0 < b) :
    (ceilQuotient a b - 1) * b < a := by
  by_contra h
  have h1 : ceilQuotient a b ≤ ceilQuotient a b - 1 := (ceilQuotient_le_iff hb).2 (by omega)
  have := ceilQuotient_pos ha hb
  omega

/-- The arithmetic of one split: chunk length and piece count are positive, the count is at
most the requested one, and the chunk length recomputed from the count is unchanged. -/
theorem split_counts {r n : Nat} (hr : 0 < r) (hn : 0 < n) :
    0 < ceilQuotient r n ∧ 0 < ceilQuotient r (ceilQuotient r n) ∧
      ceilQuotient r (ceilQuotient r n) ≤ n ∧
      ceilQuotient r (ceilQuotient r (ceilQuotient r n)) = ceilQuotient r n := by
  have hc : 0 < ceilQuotient r n := ceilQuotient_pos hr hn
  have hk : 0 < ceilQuotient r (ceilQuotient r n) := ceilQuotient_pos hr hc
  have hkn : ceilQuotient r (ceilQuotient r n) ≤ n := by
    rw [ceilQuotient_le_iff hc, Nat.mul_comm]
    exact le_ceilQuotient_mul r hn
  refine ⟨hc, hk, hkn, ?_⟩
  apply Nat.le_antisymm
  · rw [ceilQuotient_le_iff hk, Nat.mul_comm]
    exact le_ceilQuotient_mul r hc
  · rw [ceilQuotient_le_iff hn]
    calc r ≤ ceilQuotient r (ceilQuotient r (ceilQuotient r n)) * ceilQuotient r (ceilQuotient r n) :=
          le_ceilQuotient_mul r hk
      _ ≤ ceilQuotient r (ceilQuotient r (ceilQuotient r n)) * n := Nat.mul_le_mul_left _ hkn

/-- The axis found by the search holds more than one slab. -/
theorem splitAxis_some {size : Fin 3 → Nat} {a : Fin 3} (h : splitAxis size = some a) :
    1 < size a := by
  unfold splitAxis at h
  split_ifs at h with h2 h1 h0
  · cases h; exact h2
  · cases h; exact h1
  · cases h; exact h0

/-- Membership in a region whose start and size were replaced on one axis. -/
theorem isInside_update (idx : Fin 3 → Int) (sz : Fin 3 → Nat) (a : Fin 3) (s : Int) (l : Nat)
    (p : Fin 3 → Int) :
    ImageIORegion.IsInside ⟨Function.update idx a s, Function.update sz a l⟩ p ↔
      (∀ b, b ≠ a → idx b ≤ p b ∧ p b < idx b + (sz b : Int)) ∧
        (s ≤ p a ∧ p a < s + (l : Int)) := by
  unfold ImageIORegion.IsInside
  constructor
  · intro h
    refine ⟨fun b hb => ?_, ?_⟩
    · simpa [Function.update_noteq hb] using h b
    · simpa using h a
  · rintro ⟨h1, h2⟩ b
    by_cases hb : b = a
    · subst hb
      simpa using h2
    · simpa [Function.update_noteq hb] using h1 b hb

/-- Membership in a region, with one axis singled out. -/
theorem isInside_iff_axis (r : ImageIORegion) (a : Fin 3) (p : Fin 3 → Int) :
    r.IsInside p ↔
      (∀ b, b ≠ a → r.index b ≤ p b ∧ p b < r.index b + (r.size b : Int)) ∧
        (r.index a ≤ p a ∧ p a < r.index a + (r.size a : Int)) := by
  unfold ImageIORegion.IsInside
  constructor
  · intro h
    exact ⟨fun b _ => h b, h a⟩
  · rintro ⟨h1, h2⟩ b
    by_cases hb : b = a
    · subst hb
      exact h2
    · exact h1 b hb


/-- The number of splits of a splittable region is the number of chunks. -/
theorem actual_eq {n : Nat} {paste largest : ImageIORegion} {a : Fin 3}
    (h : splitAxis paste.size = some a) (hn : 0 < n) :
    GetActualNumberOfSplitsForWriting n paste largest
      = ceilQuotient (paste.size a) (ceilQuotient (paste.size a) n) := by
  have hr : 0 < paste.size a := by have := splitAxis_some h; omega
  have hk := (split_counts hr hn).2.1
  unfold GetActualNumberOfSplitsForWriting
  rw [h]
  simp only
  omega

/-- The voxels of piece i, once chunk length c and piece count k agree with each other. -/
theorem split_isInside {paste largest : ImageIORegion} {a : Fin 3}
    (h : splitAxis paste.size = some a) {c k : Nat} (hc : ceilQuotient (paste.size a) k = c)
    (hk : ceilQuotient (paste.size a) c = k) (i : Nat) (hi : i < k) (p : Fin 3 → Int) :
    (GetSplitRegionForWriting i k paste largest).IsInside p ↔
      (∀ b, b ≠ a → paste.index b ≤ p b ∧ p b < paste.index b + (paste.size b : Int)) ∧
        (paste.index a + ((i * c : Nat) : Int) ≤ p a ∧
          p a < paste.index a + ((i * c : Nat) : Int)
            + ((if i < k - 1 then c else paste.size a - i * c : Nat) : Int)) := by
  unfold GetSplitRegionForWriting
  rw [h]
  simp only [hc, hk]
  by_cases h1 : i < k - 1
  · rw [if_pos h1, if_pos h1]
    exact isInside_update _ _ _ _ _ _
  · have h2 : i = k - 1 := by omega
    rw [if_neg h1, if_pos h2, if_neg h1]
    exact isInside_update _ _ _ _ _ _

/-- An earlier piece ends before a later piece starts. -/
theorem pieces_disjoint {r c k i j : Nat} {x q : Int} (hij : i < j) (hj : j < k)
    (hi : x + ((i * c : Nat) : Int) ≤ q ∧
      q < x + ((i * c : Nat) : Int) + ((if i < k - 1 then c else r - i * c : Nat) : Int))
    (hj2 : x + ((j * c : Nat) : Int) ≤ q ∧
      q < x + ((j * c : Nat) : Int) + ((if j < k - 1 then c else r - j * c : Nat) : Int)) :
    False := by
  have h1 : i < k - 1 := by omega
  rw [if_pos h1] at hi
  have h2 : (i + 1) * c ≤ j * c := Nat.mul_le_mul_right c (by omega)
  rw [Nat.add_mul, Nat.one_mul] at h2
  omega


/-- C4: for every paste region and every requested split count n >= 1, with
k = GetActualNumberOfSplitsForWriting n paste largest: k <= n, the k regions
GetSplitRegionForWriting i k paste largest for i < k are pairwise without a common voxel, and
a voxel lies in the paste region exactly when it lies in one of them. -/
theorem split_partition (n : Nat) (paste largest : ImageIORegion) (hn : 1 ≤ n) :
    GetActualNumberOfSplitsForWriting n paste largest ≤ n ∧
      (∀ i j : Nat, i < GetActualNumberOfSplitsForWriting n paste largest →
        j < GetActualNumberOfSplitsForWriting n paste largest → i ≠ j →
        ∀ p : Fin 3 → Int,
          ¬ ((GetSplitRegionForWriting i
                (GetActualNumberOfSplitsForWriting n paste largest) paste largest).IsInside p ∧
             (GetSplitRegionForWriting j
                (GetActualNumberOfSplitsForWriting n paste largest) paste largest).IsInside p)) ∧
      (∀ p : Fin 3 → Int,
        paste.IsInside p ↔
          ∃ i : Nat, i < GetActualNumberOfSplitsForWriting n paste largest ∧
            (GetSplitRegionForWriting i
              (GetActualNumberOfSplitsForWriting n paste largest) paste largest).IsInside p) := by
  cases h : splitAxis paste.size with
  | none =>
    have hk : GetActualNumberOfSplitsForWriting n paste largest = 1 := by
      unfold GetActualNumberOfSplitsForWriting
      rw [h]
    have hs : ∀ i k, GetSplitRegionForWriting i k paste largest = paste := by
      intro i k
      unfold GetSplitRegionForWriting
      rw [h]
    rw [hk]
    refine ⟨hn, ?_, ?_⟩
    · intro i j hi hj hij
      omega
    · intro p
      constructor
      · intro hp
        exact ⟨0, by omega, by rw [hs]; exact hp⟩
      · rintro ⟨i, _, hp⟩
        rw [hs] at hp
        exact hp
  | some a =>
    have hr : 0 < paste.size a := by have := splitAxis_some h; omega
    obtain ⟨hc0, hk0, hkn, hck⟩ := split_counts hr hn
    rw [actual_eq h hn]
    generalize hcdef : ceilQuotient (paste.size a) n = c at *
    generalize hkdef : ceilQuotient (paste.size a) c = k at *
    have hcover : paste.size a ≤ k * c := by
      rw [← hkdef]; exact le_ceilQuotient_mul _ hc0
    have hlast : (k - 1) * c < paste.size a := by
      rw [← hkdef]; exact pred_ceilQuotient_mul_lt hr hc0
    refine ⟨hkn, ?_, ?_⟩
    · intro i j hi hj hij p hp
      rw [split_isInside h hck hkdef i hi, split_isInside h hck hkdef j hj] at hp
      obtain ⟨⟨_, hpi⟩, ⟨_, hpj⟩⟩ := hp
      rcases Nat.lt_or_gt_of_ne hij with hlt | hgt
      · exact pieces_disjoint hlt hj hpi hpj
      · exact pieces_disjoint hgt hi hpj hpi
    · intro p
      rw [isInside_iff_axis paste a p]
      constructor
      · rintro ⟨hrest, hlo, hhi⟩
        obtain ⟨q, hq⟩ : ∃ q : Nat, p a = paste.index a + (q : Int) :=
          ⟨(p a - paste.index a).toNat, by omega⟩
        have hqr : q < paste.size a := by omega
        have hik : q / c < k := (Nat.div_lt_iff_lt_mul hc0).2 (by omega)
        refine ⟨q / c, hik, ?_⟩
        rw [split_isInside h hck hkdef _ hik]
        refine ⟨hrest, ?_⟩
        have h1 : q / c * c ≤ q := Nat.div_mul_le_self q c
        have h2 : q < (q / c + 1) * c := by
          rw [Nat.mul_comm]; exact Nat.lt_mul_div_succ q hc0
        rw [Nat.add_mul, Nat.one_mul] at h2
        by_cases hlt : q / c < k - 1
        · rw [if_pos hlt]
          omega
        · rw [if_neg hlt]
          omega
      · rintro ⟨i, hi, hp⟩
        rw [split_isInside h hck hkdef i hi] at hp
        obtain ⟨hrest, hlo, hhi⟩ := hp
        refine ⟨hrest, ?_⟩
        by_cases hlt : i < k - 1
        · rw [if_pos hlt] at hhi
          have h2 : (i + 1) * c ≤ (k - 1) * c := Nat.mul_le_mul_right c (by omega)
          rw [Nat.add_mul, Nat.one_mul] at h2
          omega
        · rw [if_neg hlt] at hhi
          have hik : i = k - 1 := by omega
          subst hik
          omega

/-- The sample region is cut in 4 pieces when 4 are asked for, and in 5 when 7 are. -/
theorem GetActualNumberOfSplitsForWriting_samples :
    GetActualNumberOfSplitsForWriting 4 samplePaste sampleLargest = 4 ∧
      GetActualNumberOfSplitsForWriting 7 samplePaste sampleLargest = 5 := by
  constructor <;> decide

/-- Witness of C4 at the sample region with 7 requested splits. -/
theorem split_partition_witness :
    1 ≤ 7 ∧
      (GetActualNumberOfSplitsForWriting 7 samplePaste sampleLargest ≤ 7 ∧
        (∀ i j : Nat, i < GetActualNumberOfSplitsForWriting 7 samplePaste sampleLargest →
          j < GetActualNumberOfSplitsForWriting 7 samplePaste sampleLargest → i ≠ j →
          ∀ p : Fin 3 → Int,
            ¬ ((GetSplitRegionForWriting i
                  (GetActualNumberOfSplitsForWriting 7 samplePaste sampleLargest)
                  samplePaste sampleLargest).IsInside p ∧
               (GetSplitRegionForWriting j
                  (GetActualNumberOfSplitsForWriting 7 samplePaste sampleLargest)
                  samplePaste sampleLargest).IsInside p)) ∧
        (∀ p : Fin 3 → Int,
          samplePaste.IsInside p ↔
            ∃ i : Nat, i < GetActualNumberOfSplitsForWriting 7 samplePaste sampleLargest ∧
              (GetSplitRegionForWriting i
                (GetActualNumberOfSplitsForWriting 7 samplePaste sampleLargest)
                samplePaste sampleLargest).IsInside p)) :=
  ⟨by decide, split_partition 7 samplePaste sampleLargest (by decide)⟩

end itk
